import Mathlib

/-!
Verification development for the `hzrd` attack/defense automation tool.

We shallowly embed the flag ledger (`src/database.rs`), the two submission
clients (`src/submitter/tcp.rs`, `src/submitter/http.rs`) and the per-team
result aggregation (`src/attacker/ui/input.rs`, `src/attacker/runner.rs`)
as pure Lean functions.  SQLite state is modelled as a list of rows in
insertion (rowid) order; the TCP server is modelled as the list of lines it
sends; floating point `REAL` values are modelled as rationals (all values
exercised here are exactly representable).
-/

namespace Hzrd

/-- Whitespace recognizer used by the model of Rust `str::trim`. -/
def isWS (c : Char) : Bool :=
  c = ' ' || c = '\t' || c = '\n' || c = '\r'

/-- Model of Rust `str::trim` on a character list: drop whitespace on both ends. -/
def trimL (s : List Char) : List Char :=
  ((s.dropWhile isWS).reverse.dropWhile isWS).reverse

/-- Model of Rust `str::to_lowercase` (ASCII fragment, which is all the code uses). -/
def toLowerL (s : List Char) : List Char :=
  s.map Char.toLower

/-- Model of Rust `str::contains` on character lists: `needle` occurs as a
contiguous substring of `hay`. -/
def isSubstrL (needle hay : List Char) : Bool :=
  match hay with
  | [] => needle.isEmpty
  | _ :: t => needle.isPrefixOf hay || isSubstrL needle t

/-- `line.trim().to_lowercase().contains(msg)` for some `msg` in `msgs`
(the vocabulary checks of `submit_flags_tcp`). -/
def containsAny (line : String) (msgs : List String) : Bool :=
  msgs.any (fun m => isSubstrL m.toList (toLowerL (trimL line.toList)))

/-- `FlagStatus` from `src/structs/flag.rs`. -/
inductive FlagStatus where
  | Pending
  | Accepted
  | Rejected
  | Error
deriving DecidableEq, Repr

/-- One row of the `flags` table created by `init_db` in `src/database.rs`. -/
structure FlagEntry where
  flag : String
  status : FlagStatus
  points : ℚ
  capturedAt : ℕ
  submittedAt : Option ℕ
  errorMessage : Option String
deriving DecidableEq, Repr

/-- The `flags` table, rows in insertion (rowid) order. -/
abbrev Ledger := List FlagEntry

/-- First row whose `flag` column equals `f` (the row the UNIQUE constraint
makes unique in any ledger reachable from the code). -/
def findEntry (L : Ledger) (f : String) : Option FlagEntry :=
  L.find? (fun e => decide (e.flag = f))

/-- Status column of the row for `f`, if any. -/
def entryStatus (L : Ledger) (f : String) : Option FlagStatus :=
  (findEntry L f).map (·.status)

/-- Points column of the row for `f`, if any. -/
def entryPoints (L : Ledger) (f : String) : Option ℚ :=
  (findEntry L f).map (·.points)

/-- Error-message column of the row for `f`, if any. -/
def entryError (L : Ledger) (f : String) : Option (Option String) :=
  (findEntry L f).map (·.errorMessage)

/-- The UNIQUE constraint on the `flag` column, as a well-formedness predicate. -/
def wfLedger (L : Ledger) : Prop :=
  (L.map (·.flag)).Nodup

instance (L : Ledger) : Decidable (wfLedger L) := by
  unfold wfLedger; infer_instance

/-- One `INSERT OR IGNORE INTO flags (flag, status, captured_at) VALUES (f, Pending, now)`:
ignored when a row with this flag exists, otherwise appended; returns rows inserted. -/
def insertFlag (L : Ledger) (now : ℕ) (f : String) : ℕ × Ledger :=
  if L.any (fun e => decide (e.flag = f)) then (0, L)
  else (1, L ++ [⟨f, FlagStatus.Pending, 0, now, none, none⟩])

/-- `store_flags` from `src/database.rs`: insert-or-ignore each flag, counting
newly inserted rows. -/
def store_flags (L : Ledger) (flags : List String) (now : ℕ) : ℕ × Ledger :=
  flags.foldl
    (fun acc f =>
      let r := insertFlag acc.2 now f
      (acc.1 + r.1, r.2))
    (0, L)

/-- `get_pending_flags` from `src/database.rs`:
`SELECT flag FROM flags WHERE status = Pending`. -/
def get_pending_flags (L : Ledger) : List String :=
  (L.filter (fun e => decide (e.status = FlagStatus.Pending))).map (·.flag)

/-- `update_flag_status` from `src/database.rs`:
`UPDATE flags SET status, points, submitted_at, error_message WHERE flag = f`;
absent points are stored as `0.0` (`points.unwrap_or(0.0)`); returns the number
of rows the UPDATE touched, as `conn.execute` does. -/
def update_flag_status (L : Ledger) (f : String) (status : FlagStatus)
    (points : Option ℚ) (errorMessage : Option String) (now : ℕ) : ℕ × Ledger :=
  ((L.filter (fun e => decide (e.flag = f))).length,
    L.map (fun e =>
      if e.flag = f then
        { e with status := status, points := points.getD 0,
                 submittedAt := some now, errorMessage := errorMessage }
      else e))

/-- `get_points_summary` from `src/database.rs`:
`SELECT SUM(points) FROM flags WHERE status = Accepted` (NULL sum read as 0). -/
def get_points_summary (L : Ledger) : ℚ :=
  ((L.filter (fun e => decide (e.status = FlagStatus.Accepted))).map (·.points)).sum

/-! ### Line-protocol (TCP) submission client, `src/submitter/tcp.rs` -/

/-- Characters matched by the points pattern `[\d,.]+`. -/
def isNumChar (c : Char) : Bool :=
  c.isDigit || c = ',' || c = '.'

/-- Leftmost maximal run of `[\d,.]` characters: the (whole-match group of the)
first match that `Regex::captures` finds for `[\d,.]+`. -/
def firstRun (s : List Char) : Option (List Char) :=
  match s with
  | [] => none
  | c :: t => if isNumChar c then some (c :: t.takeWhile isNumChar) else firstRun t

/-- All non-overlapping maximal runs of `[\d,.]` characters, in order: what
`find_iter` for `[\d,.]+` would yield.  A numeric head character either starts
a fresh run or extends the run beginning at the head of the tail. -/
def allRuns : List Char → List (List Char)
  | [] => []
  | c :: t =>
    let r := allRuns t
    if isNumChar c then
      match t with
      | [] => [[c]]
      | d :: _ => if isNumChar d then (c :: r.headD []) :: r.tail else [c] :: r
    else r

/-- Numeric value of a digit list. -/
def natVal (s : List Char) : ℕ :=
  s.foldl (fun a c => a * 10 + (c.toNat - 48)) 0

/-- Model of Rust `str::parse::<f64>()` on strings drawn from `[\d,.]+`
(rounding ignored: every value exercised is exactly representable).  A comma or
a second dot is a parse error, a lone dot is a parse error, otherwise the
decimal value is returned. -/
def parseF64 (s : List Char) : Option ℚ :=
  if s.isEmpty then none
  else if s.any (fun c => c = ',') then none
  else if s.countP (fun c => c = '.') = 0 then
    if s.all Char.isDigit then some (natVal s) else none
  else if s.countP (fun c => c = '.') = 1 then
    let ip := s.takeWhile (fun c => !(c = '.'))
    let fp := (s.dropWhile (fun c => !(c = '.'))).tail
    if (ip ++ fp).all Char.isDigit && !(ip ++ fp).isEmpty then
      some ((natVal ip : ℚ) + (natVal fp : ℚ) / ((10 : ℚ) ^ fp.length))
    else none
  else none

/-- Points the code extracts from an accepted response line: it calls
`points_regex.captures(&line)` (FIRST match only) and sums the values of that
match's participating groups; the pattern has no groups, so this is the parse
of the single whole-match substring, `unwrap_or(0.0)` on parse failure. -/
def codePoints (line : String) : ℚ :=
  match firstRun line.toList with
  | none => 0
  | some run => (parseF64 run).getD 0

/-- Modelled from the spec: the points the spec prescribes for an accepted
response line — "extract all numeric substrings matching `[\d,.]+`, parse each
as a floating point number, SUM them". -/
def specPoints (line : String) : ℚ :=
  ((allRuns line.toList).map (fun run => (parseF64 run).getD 0)).sum

/-- Greeting vocabulary `MSG_GREETINGS`. -/
def msgGreetings : List String := ["hello", "hi", "greetings", "welcome"]

/-- Ready vocabulary `MSG_READY`. -/
def msgReady : List String := ["start", "begin", "enter your flags"]

/-- Success vocabulary `MSG_FLAG_SUCCESS`. -/
def msgFlagSuccess : List String := ["accepted", "earned"]

/-- Failure vocabulary `MSG_FLAG_FAILURE`. -/
def msgFlagFailure : List String := ["invalid", "too old", "your own"]

/-- The error variants of `SubmitError` reachable in the I/O-free model. -/
inductive SubmitError where
  | NoGreeting
  | NoReadyMessage
deriving DecidableEq, Repr

/-- One `read_line` against the modelled server script: the next line the
server sends, or the empty line at end of stream. -/
def readLine : List String → String × List String
  | [] => ("", [])
  | l :: ls => (l, ls)

/-- Body of the per-flag loop of `submit_flags_tcp`: classify the response
line, update the ledger row for this flag, and report the points added to the
in-memory `total_points` accumulator (0 unless the success branch runs). -/
def submitOneFlag (L : Ledger) (flag : String) (line : String) (now : ℕ) :
    Ledger × ℚ :=
  let success := containsAny line msgFlagSuccess
  let failure := containsAny line msgFlagFailure
  if success then
    let pts := codePoints line
    ((update_flag_status L flag FlagStatus.Accepted (some pts) none now).2, pts)
  else if failure then
    ((update_flag_status L flag FlagStatus.Rejected none
        (some ("Rejected: " ++ line)) now).2, 0)
  else
    ((update_flag_status L flag FlagStatus.Error none
        (some ("Unexpected response: " ++ line)) now).2, 0)

/-- The per-flag loop of `submit_flags_tcp` over all pending flags, threading
the ledger and accumulating `total_points`. -/
def submitLoop (L : Ledger) (flags : List String) (server : List String)
    (now : ℕ) : Ledger × ℚ :=
  match flags with
  | [] => (L, 0)
  | f :: fs =>
    let r := readLine server
    let step := submitOneFlag L f r.1 now
    let rest := submitLoop step.1 fs r.2 now
    (rest.1, step.2 + rest.2)

/-- `submit_flags_tcp` from `src/submitter/tcp.rs`, with the server modelled as
the list of lines it sends.  Mirrors the source: store the new flags, read the
pending ones, bail out on an empty pending set, check the greeting line, send
the token, check the ready line, run the per-flag loop, read the ledger total
(logged only), and return `(pending_len > 0, total_points)`. -/
def submit_flags_tcp (L : Ledger) (flags : List String) (server : List String)
    (now : ℕ) : Ledger × Except SubmitError (Bool × ℚ) :=
  let L1 := (store_flags L flags now).2
  let pending := get_pending_flags L1
  if pending.isEmpty then (L1, Except.ok (false, 0))
  else
    let g := readLine server
    if !containsAny g.1 msgGreetings then (L1, Except.error SubmitError.NoGreeting)
    else
      let rd := readLine g.2
      if !containsAny rd.1 msgReady then (L1, Except.error SubmitError.NoReadyMessage)
      else
        let res := submitLoop L1 pending rd.2 now
        let _dbTotal := get_points_summary res.1
        (res.1, Except.ok (decide (0 < pending.length), res.2))

/-- The in-memory `total_points` accumulator of one submission attempt,
written without the ledger: per pending flag, the parsed points of its
response line when the line matches the success vocabulary, else 0. -/
def attemptPoints : List String → List String → ℚ
  | [], _ => 0
  | _ :: fs, server =>
    let r := readLine server
    (if containsAny r.1 msgFlagSuccess then codePoints r.1 else 0) +
      attemptPoints fs r.2

/-! ### Batch JSON (HTTP) submission client, `src/submitter/http.rs` -/

/-- `SubmitterHTTPStatus` from `src/structs/flag.rs`. -/
inductive SubmitterHTTPStatus where
  | Accepted
  | Denied
  | Resubmit
  | Error
deriving DecidableEq, Repr

/-- `impl From<SubmitterHTTPStatus> for FlagStatus` from `src/structs/flag.rs`. -/
def flagStatusFrom : SubmitterHTTPStatus → FlagStatus
  | SubmitterHTTPStatus.Accepted => FlagStatus.Accepted
  | SubmitterHTTPStatus.Denied => FlagStatus.Rejected
  | SubmitterHTTPStatus.Resubmit => FlagStatus.Pending
  | SubmitterHTTPStatus.Error => FlagStatus.Error

/-- `SubmitterHTTPResponse` from `src/structs/flag.rs`. -/
structure SubmitterHTTPResponse where
  message : String
  flag : String
  status : SubmitterHTTPStatus
deriving DecidableEq, Repr

/-- What the remote scoring service answered: a 2xx status with a parsed
response array, or a non-success status with its status text and body. -/
inductive HttpOutcome where
  | success (responses : List SubmitterHTTPResponse)
  | failure (statusText : String) (body : String)
deriving DecidableEq, Repr

/-- The 2xx loop of `submit_flags_http`: walk the response array positionally
(`for (i, result) in responses`), stopping at the end of the pending list
(`if i >= pending_flags.len() break`); each step updates the i-th pending flag
with the mapped status, absent points, and the response message. -/
def processHttpSuccess (L : Ledger) (pending : List String)
    (responses : List SubmitterHTTPResponse) (now : ℕ) : Ledger :=
  match pending, responses with
  | _, [] => L
  | [], _ :: _ => L
  | f :: fs, r :: rs =>
    processHttpSuccess
      (update_flag_status L f (flagStatusFrom r.status) none (some r.message) now).2
      fs rs now

/-- The error message `submit_flags_http` stores on a non-success HTTP status. -/
def httpErrorMsg (statusText body : String) : String :=
  "HTTP error: " ++ statusText ++ " - " ++ body

/-- The non-2xx branch of `submit_flags_http`: every pending flag is updated to
`Error` with the status/body error message and absent points. -/
def processHttpFailure (L : Ledger) (pending : List String)
    (statusText body : String) (now : ℕ) : Ledger :=
  pending.foldl
    (fun acc f =>
      (update_flag_status acc f FlagStatus.Error none
        (some (httpErrorMsg statusText body)) now).2)
    L

/-- `submit_flags_http` from `src/submitter/http.rs` with the wire exchange
abstracted into an `HttpOutcome`: store the new flags, read the pending ones,
bail out on an empty pending set, process the response, and return
`(!pending.is_empty(), db_total_points)` — the HTTP client returns the
ledger-recomputed total. -/
def submit_flags_http (L : Ledger) (flags : List String) (outcome : HttpOutcome)
    (now : ℕ) : Ledger × Bool × ℚ :=
  let L1 := (store_flags L flags now).2
  let pending := get_pending_flags L1
  if pending.isEmpty then (L1, false, 0)
  else
    let L2 :=
      match outcome with
      | HttpOutcome.success rs => processHttpSuccess L1 pending rs now
      | HttpOutcome.failure st body => processHttpFailure L1 pending st body now
    (L2, !pending.isEmpty, get_points_summary L2)

/-! ### Per-team aggregation, `src/attacker/runner.rs` and
`src/attacker/ui/input.rs` -/

/-- `AttackError` from `src/structs/errors.rs` (the variants the aggregation
code constructs or inspects). -/
inductive AttackError where
  | NoCaptures
  | NoSuchTeam (ip : String)
  | ScriptExecutionError (script : String) (message : String)
deriving DecidableEq, Repr

/-- `AttackResult` from `src/attacker/runner.rs`: captured flags or an error. -/
abbrev AttackResult := Except AttackError (List String)

/-- The per-exploit wrapping inside `attack_team_parallel`: a successful run
with no captures is converted to `Err(NoCaptures)`; everything else passes
through. -/
def classifyExploitOutcome (r : Except AttackError (List String)) : AttackResult :=
  match r with
  | Except.ok captures =>
    if captures.isEmpty then Except.error AttackError.NoCaptures
    else Except.ok captures
  | Except.error e => Except.error e

/-- `attack_team_parallel` with the opaque Python exploit executions abstracted
as their result list: the function maps each execution result through the
captures/no-captures classification. -/
def attack_team_parallel (runs : List (Except AttackError (List String))) :
    List AttackResult :=
  runs.map classifyExploitOutcome

/-- The flags, errors and successful-script count one team's results fold into
(`current_team_flags`, `current_team_errors`,
`success_script_count_for_team` in `attack_all_teams`). -/
structure TeamFold where
  flags : List String
  errors : List AttackError
  successCount : ℕ
deriving DecidableEq, Repr

/-- The result-folding loop of `attack_all_teams`: `Ok` results append their
flags (when non-empty) and count as successful scripts, `Err` results are
collected. -/
def foldTeamResults (results : List AttackResult) : TeamFold :=
  results.foldl
    (fun acc r =>
      match r with
      | Except.ok flagsFromScript =>
        { acc with
            flags := acc.flags ++ flagsFromScript,
            successCount := acc.successCount + 1 }
      | Except.error e => { acc with errors := acc.errors ++ [e] })
    ⟨[], [], 0⟩

/-- A team's cycle result as `attack_all_teams` decides it: flags to submit, an
idle no-flag outcome, or `Errored` with the per-exploit errors. -/
inductive TeamCycle where
  | flagsResult (flags : List String)
  | idle
  | errored (errors : List AttackError)
deriving DecidableEq, Repr

/-- The status decision of `attack_all_teams`: non-empty flags win; otherwise a
team with at least one successful script is idle; otherwise the team is
`Errored` with its collected errors. -/
def teamResult (results : List AttackResult) : TeamCycle :=
  let o := foldTeamResults results
  if !o.flags.isEmpty then TeamCycle.flagsResult o.flags
  else if 0 < o.successCount then TeamCycle.idle
  else TeamCycle.errored o.errors

/-- Whether a cycle result is the `Errored` outcome. -/
def isErrored : TeamCycle → Bool
  | TeamCycle.errored _ => true
  | _ => false

/-- The flags a cycle result carries. -/
def cycleFlags : TeamCycle → List String
  | TeamCycle.flagsResult fs => fs
  | _ => []

/-- Whether a per-exploit result is the `Err` arm. -/
def resultIsErr : AttackResult → Bool
  | Except.error _ => true
  | Except.ok _ => false

/-! ### Lemmas about the ledger operations -/

theorem findEntry_cons (e : FlagEntry) (L : Ledger) (f : String) :
    findEntry (e :: L) f = if e.flag = f then some e else findEntry L f := by
  simp only [findEntry, List.find?_cons]
  by_cases h : e.flag = f <;> simp [h]

theorem findEntry_eq_none (L : Ledger) (f : String)
    (h : ∀ e ∈ L, e.flag ≠ f) : findEntry L f = none := by
  simp only [findEntry, List.find?_eq_none, decide_eq_true_eq]
  exact h

theorem findEntry_mem {L : Ledger} {f : String} {e : FlagEntry}
    (h : findEntry L f = some e) : e ∈ L :=
  List.mem_of_find?_eq_some h

theorem findEntry_flag {L : Ledger} {f : String} {e : FlagEntry}
    (h : findEntry L f = some e) : e.flag = f := by
  have := List.find?_some h
  simpa using this

theorem findEntry_append_left {L : Ledger} {f : String} {e : FlagEntry}
    (h : findEntry L f = some e) (M : Ledger) :
    findEntry (L ++ M) f = some e := by
  simp only [findEntry, List.find?_append] at *
  rw [h]
  rfl

/-- The UPDATE statement leaves the flag column of every row unchanged. -/
theorem update_map_flag (L : Ledger) (f : String) (st : FlagStatus)
    (pts : Option ℚ) (msg : Option String) (now : ℕ) :
    (update_flag_status L f st pts msg now).2.map (·.flag) = L.map (·.flag) := by
  simp only [update_flag_status, List.map_map]
  refine List.map_congr_left (fun e _ => ?_)
  by_cases h : e.flag = f <;> simp [h]

theorem wf_update {L : Ledger} (f : String) (st : FlagStatus)
    (pts : Option ℚ) (msg : Option String) (now : ℕ) (hwf : wfLedger L) :
    wfLedger (update_flag_status L f st pts msg now).2 := by
  unfold wfLedger
  rw [update_map_flag]
  exact hwf

/-- Updating a flag no row carries is a no-op reporting zero rows. -/
theorem update_not_found {L : Ledger} {f : String}
    (h : ∀ e ∈ L, e.flag ≠ f) (st : FlagStatus) (pts : Option ℚ)
    (msg : Option String) (now : ℕ) :
    update_flag_status L f st pts msg now = (0, L) := by
  unfold update_flag_status
  simp only [Prod.mk.injEq]
  constructor
  · simp only [List.length_eq_zero, List.filter_eq_nil_iff, decide_eq_true_eq]
    exact h
  · show L.map _ = L
    rw [List.map_congr_left (g := id) (fun e he => by simp [h e he]), List.map_id]

theorem findEntry_update_self {L : Ledger} {f : String} {e : FlagEntry}
    (h : findEntry L f = some e) (st : FlagStatus) (pts : Option ℚ)
    (msg : Option String) (now : ℕ) :
    findEntry (update_flag_status L f st pts msg now).2 f =
      some { e with status := st, points := pts.getD 0,
                    submittedAt := some now, errorMessage := msg } := by
  induction L with
  | nil => simp [findEntry] at h
  | cons a L ih =>
    rw [findEntry_cons] at h
    by_cases ha : a.flag = f
    · simp only [ha, if_pos rfl] at h
      cases h
      simp [update_flag_status, findEntry_cons, ha]
    · rw [if_neg ha] at h
      have := ih h
      simp only [update_flag_status] at this ⊢
      simp [List.map_cons, findEntry_cons, ha, this]

theorem findEntry_update_other {L : Ledger} {f g : String} (hne : g ≠ f)
    (st : FlagStatus) (pts : Option ℚ) (msg : Option String) (now : ℕ) :
    findEntry (update_flag_status L f st pts msg now).2 g = findEntry L g := by
  have hfg : ¬ f = g := fun hh => hne hh.symm
  induction L with
  | nil => rfl
  | cons a L ih =>
    simp only [update_flag_status, List.map_cons] at ih ⊢
    by_cases ha : a.flag = f
    · simp [findEntry_cons, ha, hfg, ih]
    · by_cases hag : a.flag = g
      · simp [findEntry_cons, ha, hag, hne]
      · simp [findEntry_cons, ha, hag, ih]

/-- Every row of an updated ledger is an original row or carries the written
status and points. -/
theorem mem_update {L : Ledger} {f : String} {st : FlagStatus}
    {pts : Option ℚ} {msg : Option String} {now : ℕ} {e' : FlagEntry}
    (h : e' ∈ (update_flag_status L f st pts msg now).2) :
    e' ∈ L ∨ (e'.status = st ∧ e'.points = pts.getD 0 ∧ e'.errorMessage = msg) := by
  simp only [update_flag_status, List.mem_map] at h
  obtain ⟨e, _, he⟩ := h
  by_cases hf : e.flag = f
  · rw [if_pos hf] at he
    right
    rw [← he]
    exact ⟨rfl, rfl, rfl⟩
  · rw [if_neg hf] at he
    left
    rwa [← he] at *

theorem mem_insertFlag {L : Ledger} {e : FlagEntry} (h : e ∈ L) (now : ℕ)
    (f : String) : e ∈ (insertFlag L now f).2 := by
  unfold insertFlag
  by_cases hc : L.any (fun e => decide (e.flag = f)) <;>
    simp [hc, List.mem_append, h]

theorem insertFlag_sub {L : Ledger} {e' : FlagEntry} {now : ℕ} {f : String}
    (h : e' ∈ (insertFlag L now f).2) :
    e' ∈ L ∨ e' = ⟨f, FlagStatus.Pending, 0, now, none, none⟩ := by
  unfold insertFlag at h
  by_cases hc : L.any (fun e => decide (e.flag = f)) <;>
    simp [hc, List.mem_append] at h <;> tauto

theorem wf_insertFlag {L : Ledger} (hwf : wfLedger L) (now : ℕ) (f : String) :
    wfLedger (insertFlag L now f).2 := by
  unfold insertFlag
  by_cases hc : L.any (fun e => decide (e.flag = f))
  · simpa [hc] using hwf
  · simp only [hc, Bool.false_eq_true, if_neg, if_false]
    unfold wfLedger at *
    rw [List.map_append]
    simp only [List.any_eq_true, decide_eq_true_eq, not_exists, not_and] at hc
    have hnotin : f ∉ L.map (·.flag) := by
      simp only [List.mem_map, not_exists, not_and]
      intro e he hef
      exact hc e he hef
    have hmid := @List.nodup_middle _ f (L.map (·.flag)) []
    simp only [List.map_cons, List.map_nil]
    rw [show (L.map (·.flag)) ++ [f] = (L.map (·.flag)) ++ f :: [] from rfl, hmid]
    simp only [List.append_nil, List.nodup_cons]
    exact ⟨hnotin, hwf⟩

theorem findEntry_insertFlag_found {L : Ledger} {f' : String} {e : FlagEntry}
    (h : findEntry L f' = some e) (now : ℕ) (f : String) :
    findEntry (insertFlag L now f).2 f' = some e := by
  unfold insertFlag
  by_cases hc : L.any (fun e => decide (e.flag = f))
  · simpa [hc]
  · simp only [hc, Bool.false_eq_true, if_false]
    exact findEntry_append_left h _

theorem summary_insertFlag (L : Ledger) (now : ℕ) (f : String) :
    get_points_summary (insertFlag L now f).2 = get_points_summary L := by
  unfold insertFlag
  by_cases hc : L.any (fun e => decide (e.flag = f)) <;>
    simp [hc, get_points_summary, List.filter_append]

/-- Unrolling `store_flags` one flag at a time. -/
theorem store_flags_cons (L : Ledger) (f : String) (fs : List String) (now : ℕ) :
    store_flags L (f :: fs) now =
      ((insertFlag L now f).1 + (store_flags (insertFlag L now f).2 fs now).1,
        (store_flags (insertFlag L now f).2 fs now).2) := by
  have go : ∀ (gs : List String) (M : Ledger) (c : ℕ),
      gs.foldl (fun acc g =>
        let r := insertFlag acc.2 now g
        (acc.1 + r.1, r.2)) (c, M) =
      (c + (store_flags M gs now).1, (store_flags M gs now).2) := by
    intro gs
    induction gs with
    | nil => intro M c; simp [store_flags]
    | cons g gs ih =>
      intro M c
      simp only [store_flags, List.foldl_cons]
      rw [ih, ih]
      simp [Nat.add_assoc]
  have h1 : store_flags L (f :: fs) now =
      fs.foldl (fun acc g =>
        let r := insertFlag acc.2 now g
        (acc.1 + r.1, r.2))
        (0 + (insertFlag L now f).1, (insertFlag L now f).2) := rfl
  rw [h1, go]
  simp

theorem mem_store_flags {L : Ledger} {e : FlagEntry} (h : e ∈ L)
    (flags : List String) (now : ℕ) : e ∈ (store_flags L flags now).2 := by
  induction flags generalizing L with
  | nil => simpa [store_flags]
  | cons f fs ih => rw [store_flags_cons]; exact ih (mem_insertFlag h now f)

theorem store_flags_sub {L : Ledger} {e' : FlagEntry} {flags : List String}
    {now : ℕ} (h : e' ∈ (store_flags L flags now).2) :
    e' ∈ L ∨ (e'.status = FlagStatus.Pending ∧ e'.points = 0) := by
  induction flags generalizing L with
  | nil => simp only [store_flags, List.foldl_nil] at h; exact Or.inl h
  | cons f fs ih =>
    rw [store_flags_cons] at h
    rcases ih h with hmem | hnew
    · rcases insertFlag_sub hmem with hL | rfl
      · exact Or.inl hL
      · exact Or.inr ⟨rfl, rfl⟩
    · exact Or.inr hnew

theorem wf_store_flags {L : Ledger} (hwf : wfLedger L) (flags : List String)
    (now : ℕ) : wfLedger (store_flags L flags now).2 := by
  induction flags generalizing L with
  | nil => simpa [store_flags]
  | cons f fs ih => rw [store_flags_cons]; exact ih (wf_insertFlag hwf now f)

theorem findEntry_store_of_found {L : Ledger} {f' : String} {e : FlagEntry}
    (h : findEntry L f' = some e) (flags : List String) (now : ℕ) :
    findEntry (store_flags L flags now).2 f' = some e := by
  induction flags generalizing L with
  | nil => simpa [store_flags]
  | cons f fs ih =>
    rw [store_flags_cons]
    exact ih (findEntry_insertFlag_found h now f)

theorem summary_store_flags (L : Ledger) (flags : List String) (now : ℕ) :
    get_points_summary (store_flags L flags now).2 = get_points_summary L := by
  induction flags generalizing L with
  | nil => simp [store_flags]
  | cons f fs ih => rw [store_flags_cons, ih, summary_insertFlag]

/-- With the UNIQUE constraint, a member row with the sought flag is the row
the lookup returns. -/
theorem findEntry_of_mem_wf {L : Ledger} {e : FlagEntry} {f : String}
    (hwf : wfLedger L) (hmem : e ∈ L) (hf : e.flag = f) :
    findEntry L f = some e := by
  induction L with
  | nil => cases hmem
  | cons a L ih =>
    unfold wfLedger at hwf
    simp only [List.map_cons, List.nodup_cons, List.mem_map] at hwf
    rcases List.mem_cons.mp hmem with rfl | hL
    · rw [findEntry_cons, if_pos hf]
    · have hne : ¬ a.flag = f := by
        intro haf
        exact hwf.1 ⟨e, hL, by rw [hf, haf]⟩
      rw [findEntry_cons, if_neg hne]
      exact ih hwf.2 hL

theorem pending_nodup {L : Ledger} (hwf : wfLedger L) :
    (get_pending_flags L).Nodup := by
  have hsub : (get_pending_flags L).Sublist (L.map (·.flag)) :=
    List.Sublist.map _ (List.filter_sublist L)
  exact List.Nodup.sublist hsub hwf

theorem mem_pending {L : Ledger} {f : String}
    (h : f ∈ get_pending_flags L) :
    ∃ e ∈ L, e.flag = f ∧ e.status = FlagStatus.Pending := by
  simp only [get_pending_flags, List.mem_map, List.mem_filter,
    decide_eq_true_eq] at h
  obtain ⟨e, ⟨he, hst⟩, hf⟩ := h
  exact ⟨e, he, hf, hst⟩

theorem entryStatus_of_mem_pending {L : Ledger} {f : String}
    (hwf : wfLedger L) (h : f ∈ get_pending_flags L) :
    entryStatus L f = some FlagStatus.Pending := by
  obtain ⟨e, he, hf, hst⟩ := mem_pending h
  rw [entryStatus, findEntry_of_mem_wf hwf he hf]
  simp [hst]

theorem filter_flag_length_one {L : Ledger} {e : FlagEntry} {f : String}
    (hwf : wfLedger L) (hmem : e ∈ L) (hf : e.flag = f) :
    (L.filter (fun x => decide (x.flag = f))).length = 1 := by
  induction L with
  | nil => cases hmem
  | cons a L ih =>
    unfold wfLedger at hwf
    simp only [List.map_cons, List.nodup_cons, List.mem_map] at hwf
    rcases List.mem_cons.mp hmem with rfl | hL
    · have : L.filter (fun x => decide (x.flag = f)) = [] := by
        simp only [List.filter_eq_nil_iff, decide_eq_true_eq]
        intro x hx hxf
        exact hwf.1 ⟨x, hx, by rw [hxf, hf]⟩
      simp [List.filter_cons, hf, this]
    · have hne : ¬ a.flag = f := by
        intro haf
        exact hwf.1 ⟨e, hL, by rw [hf, haf]⟩
      have hdec : (decide (a.flag = f)) = false := by simp [hne]
      rw [List.filter_cons, hdec]
      simp only [Bool.false_eq_true, if_false]
      exact ih hwf.2 hL

/-- Accepted-points sum, unrolled one row. -/
theorem summary_cons (e : FlagEntry) (L : Ledger) :
    get_points_summary (e :: L) =
      (if e.status = FlagStatus.Accepted then e.points else 0) +
        get_points_summary L := by
  by_cases h : e.status = FlagStatus.Accepted <;>
    simp [get_points_summary, List.filter_cons, h]

/-- Updating a row that is Pending (under UNIQUE) with absent points leaves
the Accepted-points sum unchanged. -/
theorem summary_update_pending {L : Ledger} {f : String}
    (hwf : wfLedger L) (hp : entryStatus L f = some FlagStatus.Pending)
    (st : FlagStatus) (msg : Option String) (now : ℕ) :
    get_points_summary (update_flag_status L f st none msg now).2 =
      get_points_summary L := by
  induction L with
  | nil => rfl
  | cons a L ih =>
    unfold wfLedger at hwf
    simp only [List.map_cons, List.nodup_cons, List.mem_map] at hwf
    by_cases ha : a.flag = f
    · have hnotail : ∀ e ∈ L, e.flag ≠ f := by
        intro e he hef
        exact hwf.1 ⟨e, he, by rw [hef, ha]⟩
      have hap : a.status = FlagStatus.Pending := by
        rw [entryStatus, findEntry_cons, if_pos ha] at hp
        simpa using hp
      have htail := update_not_found hnotail st none msg now
      simp only [update_flag_status, Prod.mk.injEq] at htail
      simp only [update_flag_status, List.map_cons, if_pos ha]
      rw [show (L.map fun e =>
          if e.flag = f then
            { e with status := st, points := (none : Option ℚ).getD 0,
                     submittedAt := some now, errorMessage := msg }
          else e) = L from htail.2]
      rw [summary_cons, summary_cons, hap]
      by_cases hst : st = FlagStatus.Accepted <;> simp [hst]
    · have hp' : entryStatus L f = some FlagStatus.Pending := by
        rwa [entryStatus, findEntry_cons, if_neg ha] at hp
      simp only [update_flag_status, List.map_cons, if_neg ha]
      rw [summary_cons, summary_cons]
      have := ih hwf.2 hp'
      simp only [update_flag_status] at this
      rw [this]

/-! ### Lemmas about the HTTP client's response processing -/

theorem processHttpSuccess_not_mem {pending : List String} {f : String}
    (h : f ∉ pending) (L : Ledger) (rs : List SubmitterHTTPResponse) (now : ℕ) :
    findEntry (processHttpSuccess L pending rs now) f = findEntry L f := by
  induction pending generalizing L rs with
  | nil => cases rs <;> rfl
  | cons g fs ih =>
    cases rs with
    | nil => rfl
    | cons r rs' =>
      have hgf : f ≠ g := fun hh => h (hh ▸ List.mem_cons_self g fs)
      have hfs : f ∉ fs := fun hh => h (List.mem_cons_of_mem g hh)
      show findEntry (processHttpSuccess _ fs rs' now) f = findEntry L f
      rw [ih hfs, findEntry_update_other hgf]

theorem processHttpSuccess_take (L : Ledger) (pending : List String)
    (rs : List SubmitterHTTPResponse) (now : ℕ) :
    processHttpSuccess L pending rs now =
      processHttpSuccess L pending (rs.take pending.length) now := by
  induction pending generalizing L rs with
  | nil => cases rs <;> rfl
  | cons g fs ih =>
    cases rs with
    | nil => rfl
    | cons r rs' =>
      show processHttpSuccess _ fs rs' now = processHttpSuccess _ fs (rs'.take fs.length) now
      exact ih _ rs'

/-- Positional matching of the 2xx loop: under the UNIQUE-derived invariants,
the i-th pending flag ends with the i-th response's mapped status when the
response array reaches it, and stays Pending when the array is shorter. -/
theorem processHttpSuccess_status {pending : List String}
    {rs : List SubmitterHTTPResponse} {L : Ledger} {now : ℕ}
    (hnd : pending.Nodup)
    (hpend : ∀ g ∈ pending, entryStatus L g = some FlagStatus.Pending) :
    ∀ i f, pending[i]? = some f →
      ((∀ r, rs[i]? = some r →
          entryStatus (processHttpSuccess L pending rs now) f =
            some (flagStatusFrom r.status)) ∧
        (rs.length ≤ i →
          entryStatus (processHttpSuccess L pending rs now) f =
            some FlagStatus.Pending)) := by
  induction pending generalizing rs L with
  | nil => intro i f hf; simp at hf
  | cons g fs ih =>
    intro i f hf
    have hmemf : f ∈ g :: fs := by
      obtain ⟨hlt, hget⟩ := List.getElem?_eq_some_iff.mp hf
      exact hget ▸ List.getElem_mem hlt
    cases rs with
    | nil =>
      refine ⟨fun r hr => by simp at hr, fun _ => ?_⟩
      have : processHttpSuccess L (g :: fs) [] now = L := rfl
      rw [this]
      exact hpend f hmemf
    | cons r0 rs' =>
      simp only [List.nodup_cons] at hnd
      have hstep : processHttpSuccess L (g :: fs) (r0 :: rs') now =
          processHttpSuccess
            (update_flag_status L g (flagStatusFrom r0.status) none
              (some r0.message) now).2 fs rs' now := rfl
      have hg := hpend g (List.mem_cons_self g fs)
      obtain ⟨e0, he0, he0s⟩ : ∃ e, findEntry L g = some e ∧
          e.status = FlagStatus.Pending := by
        unfold entryStatus at hg
        cases hfe : findEntry L g with
        | none => rw [hfe] at hg; cases hg
        | some e => rw [hfe] at hg; exact ⟨e, rfl, by simpa using hg⟩
      have hpend' : ∀ g' ∈ fs, entryStatus
          (update_flag_status L g (flagStatusFrom r0.status) none
            (some r0.message) now).2 g' = some FlagStatus.Pending := by
        intro g' hg'
        have hne : g' ≠ g := fun hh => hnd.1 (hh ▸ hg')
        rw [entryStatus, findEntry_update_other hne]
        exact hpend g' (List.mem_cons_of_mem g hg')
      cases i with
      | zero =>
        simp only [List.getElem?_cons_zero, Option.some.injEq] at hf
        subst hf
        refine ⟨fun r hr => ?_, fun hlen => by simp at hlen⟩
        simp only [List.getElem?_cons_zero, Option.some.injEq] at hr
        subst hr
        rw [hstep, entryStatus,
          processHttpSuccess_not_mem hnd.1 _ rs' now,
          findEntry_update_self he0]
        rfl
      | succ j =>
        simp only [List.getElem?_cons_succ] at hf
        have := @ih rs' _ hnd.2 hpend' j f hf
        refine ⟨fun r hr => ?_, fun hlen => ?_⟩
        · simp only [List.getElem?_cons_succ] at hr
          rw [hstep]
          exact this.1 r hr
        · simp only [List.length_cons, Nat.succ_le_succ_iff] at hlen
          rw [hstep]
          exact this.2 hlen

/-- Unrolling the non-2xx loop one pending flag at a time. -/
theorem processHttpFailure_cons (L : Ledger) (g : String) (fs : List String)
    (st body : String) (now : ℕ) :
    processHttpFailure L (g :: fs) st body now =
      processHttpFailure
        (update_flag_status L g FlagStatus.Error none
          (some (httpErrorMsg st body)) now).2 fs st body now := rfl

theorem processHttpFailure_not_mem {pending : List String} {f : String}
    (h : f ∉ pending) (L : Ledger) (st body : String) (now : ℕ) :
    findEntry (processHttpFailure L pending st body now) f = findEntry L f := by
  induction pending generalizing L with
  | nil => rfl
  | cons g fs ih =>
    have hgf : f ≠ g := fun hh => h (hh ▸ List.mem_cons_self g fs)
    have hfs : f ∉ fs := fun hh => h (List.mem_cons_of_mem g hh)
    rw [processHttpFailure_cons, ih hfs, findEntry_update_other hgf]

/-- On a failing response every pending flag's row ends Error with the
status/body error message. -/
theorem processHttpFailure_status {pending : List String} {L : Ledger}
    {st body : String} {now : ℕ} (hnd : pending.Nodup)
    (hex : ∀ g ∈ pending, (findEntry L g).isSome = true) :
    ∀ f ∈ pending,
      entryStatus (processHttpFailure L pending st body now) f =
          some FlagStatus.Error ∧
        entryError (processHttpFailure L pending st body now) f =
          some (some (httpErrorMsg st body)) := by
  induction pending generalizing L with
  | nil => intro f hf; cases hf
  | cons g fs ih =>
    intro f hf
    simp only [List.nodup_cons] at hnd
    obtain ⟨e0, he0⟩ : ∃ e, findEntry L g = some e := by
      have := hex g (List.mem_cons_self g fs)
      cases hfe : findEntry L g with
      | none => rw [hfe] at this; cases this
      | some e => exact ⟨e, rfl⟩
    have hex' : ∀ g' ∈ fs, (findEntry
        (update_flag_status L g FlagStatus.Error none
          (some (httpErrorMsg st body)) now).2 g').isSome = true := by
      intro g' hg'
      by_cases hne : g' = g
      · subst hne
        rw [findEntry_update_self he0]
        rfl
      · rw [findEntry_update_other hne]
        exact hex g' (List.mem_cons_of_mem g hg')
    rcases List.mem_cons.mp hf with rfl | hffs
    · rw [processHttpFailure_cons, entryStatus, entryError,
        processHttpFailure_not_mem hnd.1 _ st body now,
        findEntry_update_self he0]
      exact ⟨rfl, rfl⟩
    · rw [processHttpFailure_cons]
      exact ih hnd.2 hex' f hffs

theorem mem_processHttpFailure {pending : List String} {L : Ledger}
    {st body : String} {now : ℕ} {e' : FlagEntry}
    (h : e' ∈ processHttpFailure L pending st body now) :
    e' ∈ L ∨ e'.status = FlagStatus.Error := by
  induction pending generalizing L with
  | nil => exact Or.inl h
  | cons g fs ih =>
    rw [processHttpFailure_cons] at h
    rcases ih h with hmem | herr
    · rcases mem_update hmem with hL | hupd
      · exact Or.inl hL
      · exact Or.inr hupd.1
    · exact Or.inr herr

theorem mem_processHttpSuccess {pending : List String}
    {rs : List SubmitterHTTPResponse} {L : Ledger} {now : ℕ} {e' : FlagEntry}
    (h : e' ∈ processHttpSuccess L pending rs now) :
    e' ∈ L ∨ e'.points = 0 := by
  induction pending generalizing L rs with
  | nil => cases rs <;> exact Or.inl h
  | cons g fs ih =>
    cases rs with
    | nil => exact Or.inl h
    | cons r rs' =>
      have hstep : processHttpSuccess L (g :: fs) (r :: rs') now =
          processHttpSuccess
            (update_flag_status L g (flagStatusFrom r.status) none
              (some r.message) now).2 fs rs' now := rfl
      rw [hstep] at h
      rcases ih h with hmem | hz
      · rcases mem_update hmem with hL | hupd
        · exact Or.inl hL
        · exact Or.inr hupd.2.1
      · exact Or.inr hz

theorem summary_processHttpSuccess {pending : List String}
    {rs : List SubmitterHTTPResponse} {L : Ledger} {now : ℕ}
    (hwf : wfLedger L) (hnd : pending.Nodup)
    (hpend : ∀ g ∈ pending, entryStatus L g = some FlagStatus.Pending) :
    get_points_summary (processHttpSuccess L pending rs now) =
      get_points_summary L := by
  induction pending generalizing L rs with
  | nil => cases rs <;> rfl
  | cons g fs ih =>
    cases rs with
    | nil => rfl
    | cons r rs' =>
      simp only [List.nodup_cons] at hnd
      have hg := hpend g (List.mem_cons_self g fs)
      have hpend' : ∀ g' ∈ fs, entryStatus
          (update_flag_status L g (flagStatusFrom r.status) none
            (some r.message) now).2 g' = some FlagStatus.Pending := by
        intro g' hg'
        have hne : g' ≠ g := fun hh => hnd.1 (hh ▸ hg')
        rw [entryStatus, findEntry_update_other hne]
        exact hpend g' (List.mem_cons_of_mem g hg')
      have hstep : processHttpSuccess L (g :: fs) (r :: rs') now =
          processHttpSuccess
            (update_flag_status L g (flagStatusFrom r.status) none
              (some r.message) now).2 fs rs' now := rfl
      rw [hstep, ih (wf_update g _ none _ now hwf) hnd.2 hpend',
        summary_update_pending hwf hg]

theorem summary_processHttpFailure {pending : List String} {L : Ledger}
    {st body : String} {now : ℕ} (hwf : wfLedger L) (hnd : pending.Nodup)
    (hpend : ∀ g ∈ pending, entryStatus L g = some FlagStatus.Pending) :
    get_points_summary (processHttpFailure L pending st body now) =
      get_points_summary L := by
  induction pending generalizing L with
  | nil => rfl
  | cons g fs ih =>
    simp only [List.nodup_cons] at hnd
    have hg := hpend g (List.mem_cons_self g fs)
    have hpend' : ∀ g' ∈ fs, entryStatus
        (update_flag_status L g FlagStatus.Error none
          (some (httpErrorMsg st body)) now).2 g' = some FlagStatus.Pending := by
      intro g' hg'
      have hne : g' ≠ g := fun hh => hnd.1 (hh ▸ hg')
      rw [entryStatus, findEntry_update_other hne]
      exact hpend g' (List.mem_cons_of_mem g hg')
    rw [processHttpFailure_cons, ih (wf_update g _ none _ now hwf) hnd.2 hpend',
      summary_update_pending hwf hg]

/-! ### Lemmas about the TCP client -/

/-- Points the per-flag step adds to the in-memory accumulator. -/
theorem submitOneFlag_points (L : Ledger) (flag line : String) (now : ℕ) :
    (submitOneFlag L flag line now).2 =
      if containsAny line msgFlagSuccess then codePoints line else 0 := by
  unfold submitOneFlag
  by_cases hs : containsAny line msgFlagSuccess
  · simp [hs]
  · by_cases hf : containsAny line msgFlagFailure <;> simp [hs, hf]

/-- The accumulated `total_points` of the per-flag loop depends only on the
response lines, not on the ledger being threaded through it. -/
theorem submitLoop_points (flags : List String) (server : List String)
    (L : Ledger) (now : ℕ) :
    (submitLoop L flags server now).2 = attemptPoints flags server := by
  induction flags generalizing L server with
  | nil => rfl
  | cons f fs ih =>
    show (submitOneFlag L f (readLine server).1 now).2 +
        (submitLoop (submitOneFlag L f (readLine server).1 now).1 fs
          (readLine server).2 now).2 = _
    rw [ih, submitOneFlag_points]
    rfl

/-! ### Lemmas about the per-team aggregation -/

/-- Folding the team results from an arbitrary accumulator. -/
theorem foldTeamResults_go (rs : List AttackResult) (acc : TeamFold) :
    rs.foldl
      (fun acc r =>
        match r with
        | Except.ok flagsFromScript =>
          { acc with
              flags := acc.flags ++ flagsFromScript,
              successCount := acc.successCount + 1 }
        | Except.error e => { acc with errors := acc.errors ++ [e] })
      acc =
    ⟨acc.flags ++ (foldTeamResults rs).flags,
      acc.errors ++ (foldTeamResults rs).errors,
      acc.successCount + (foldTeamResults rs).successCount⟩ := by
  induction rs generalizing acc with
  | nil => simp [foldTeamResults]
  | cons r rs ih =>
    cases r with
    | ok fl =>
      have hrec : foldTeamResults (Except.ok fl :: rs) =
          ⟨fl ++ (foldTeamResults rs).flags, (foldTeamResults rs).errors,
            1 + (foldTeamResults rs).successCount⟩ := by
        show List.foldl _ _ rs = _
        rw [ih]
        simp [Nat.add_comm]
      rw [List.foldl_cons, ih, hrec]
      simp [List.append_assoc, Nat.add_assoc]
    | error e =>
      have hrec : foldTeamResults (Except.error e :: rs) =
          ⟨(foldTeamResults rs).flags, e :: (foldTeamResults rs).errors,
            (foldTeamResults rs).successCount⟩ := by
        show List.foldl _ _ rs = _
        rw [ih]
        simp
      rw [List.foldl_cons, ih, hrec]
      simp

/-- A team's fold ends with no flags and no successful script exactly when
every per-exploit result is an error. -/
theorem foldTeamResults_all_err (rs : List AttackResult) :
    ((foldTeamResults rs).flags = [] ∧ (foldTeamResults rs).successCount = 0) ↔
      ∀ r ∈ rs, resultIsErr r = true := by
  induction rs with
  | nil => simp [foldTeamResults]
  | cons r rs ih =>
    cases r with
    | ok fl =>
      have hrec : foldTeamResults (Except.ok fl :: rs) =
          ⟨fl ++ (foldTeamResults rs).flags, (foldTeamResults rs).errors,
            1 + (foldTeamResults rs).successCount⟩ := by
        show List.foldl _ _ rs = _
        rw [foldTeamResults_go]
        simp [Nat.add_comm]
      rw [hrec]
      simp [resultIsErr, Nat.add_comm]
    | error e =>
      have hrec : foldTeamResults (Except.error e :: rs) =
          ⟨(foldTeamResults rs).flags, e :: (foldTeamResults rs).errors,
            (foldTeamResults rs).successCount⟩ := by
        show List.foldl _ _ rs = _
        rw [foldTeamResults_go]
        simp
      rw [hrec]
      simp only [List.mem_cons]
      constructor
      · rintro ⟨h1, h2⟩ r hr
        rcases hr with rfl | hr
        · rfl
        · exact (ih.mp ⟨h1, h2⟩) r hr
      · intro h
        exact ih.mpr (fun r hr => h r (Or.inr hr))

/-! ### Substring facts for the stored error messages -/

theorem isPrefixOf_append_self (n s : List Char) :
    n.isPrefixOf (n ++ s) = true := by
  induction n with
  | nil => simp [List.isPrefixOf]
  | cons c n ih => simp [List.isPrefixOf, ih]

theorem isSubstrL_middle (n p s : List Char) :
    isSubstrL n (p ++ n ++ s) = true := by
  induction p with
  | nil =>
    simp only [List.nil_append]
    cases hcase : n ++ s with
    | nil =>
      have hn : n = [] := (List.append_eq_nil.mp hcase).1
      simp [isSubstrL, hn]
    | cons c t =>
      have h1 : n.isPrefixOf (c :: t) = true := by
        rw [← hcase]
        exact isPrefixOf_append_self n s
      show (n.isPrefixOf (c :: t) || isSubstrL n t) = true
      rw [h1]
      rfl
  | cons c p ih =>
    simp only [List.cons_append]
    show (n.isPrefixOf (c :: (p ++ n ++ s)) || isSubstrL n (p ++ n ++ s)) = true
    rw [ih, Bool.or_true]

theorem toList_append (a b : String) :
    (a ++ b).toList = a.toList ++ b.toList := by
  simp [String.toList, String.data_append]

theorem httpErrorMsg_contains_st (st body : String) :
    isSubstrL st.toList (httpErrorMsg st body).toList = true := by
  have h : (httpErrorMsg st body).toList =
      "HTTP error: ".toList ++ st.toList ++ (" - " ++ body).toList := by
    simp [httpErrorMsg, toList_append, List.append_assoc]
  rw [h]
  exact isSubstrL_middle _ _ _

theorem httpErrorMsg_contains_body (st body : String) :
    isSubstrL body.toList (httpErrorMsg st body).toList = true := by
  have h : (httpErrorMsg st body).toList =
      ("HTTP error: " ++ st ++ " - ").toList ++ body.toList ++ [] := by
    simp [httpErrorMsg, toList_append, List.append_assoc]
  rw [h]
  exact isSubstrL_middle _ _ _

/-! ### Claim theorems -/

/-- C3: the ledger store is idempotent on flag text: for a flag `f` absent
from a well-formed ledger, the first `store([f])` reports one insertion and
creates exactly one row for `f`, with status Pending; the second `store([f])`
reports zero insertions and leaves the ledger unchanged — the duplicate is
silently ignored, not an error. -/
theorem C3_store_idempotent (L : Ledger) (f : String) (now now' : ℕ)
    (hwf : wfLedger L) (habs : ∀ e ∈ L, e.flag ≠ f) :
    (store_flags L [f] now).1 = 1 ∧
    entryStatus (store_flags L [f] now).2 f = some FlagStatus.Pending ∧
    ((store_flags L [f] now).2.filter (fun e => decide (e.flag = f))).length = 1 ∧
    (store_flags (store_flags L [f] now).2 [f] now').1 = 0 ∧
    (store_flags (store_flags L [f] now).2 [f] now').2 = (store_flags L [f] now).2 := by
  have hc : L.any (fun e => decide (e.flag = f)) = false := by
    simp only [List.any_eq_false, decide_eq_true_eq]
    exact habs
  have hins : insertFlag L now f =
      (1, L ++ [⟨f, FlagStatus.Pending, 0, now, none, none⟩]) := by
    simp [insertFlag, hc]
  have h1 : store_flags L [f] now =
      (1, L ++ [⟨f, FlagStatus.Pending, 0, now, none, none⟩]) := by
    rw [store_flags_cons, hins]
    simp [store_flags]
  have hnew : (⟨f, FlagStatus.Pending, 0, now, none, none⟩ : FlagEntry) ∈
      (store_flags L [f] now).2 := by
    rw [h1]
    simp
  have hwf1 : wfLedger (store_flags L [f] now).2 := wf_store_flags hwf [f] now
  have hfind : findEntry (store_flags L [f] now).2 f =
      some ⟨f, FlagStatus.Pending, 0, now, none, none⟩ :=
    findEntry_of_mem_wf hwf1 hnew rfl
  have hany1 : (store_flags L [f] now).2.any (fun e => decide (e.flag = f)) = true :=
    List.any_eq_true.mpr ⟨_, hnew, by simp⟩
  have hins2 : insertFlag (store_flags L [f] now).2 now' f =
      (0, (store_flags L [f] now).2) := by
    simp [insertFlag, hany1]
  refine ⟨by rw [h1], ?_, ?_, ?_, ?_⟩
  · simp [entryStatus, hfind]
  · exact filter_flag_length_one hwf1 hnew rfl
  · rw [store_flags_cons, hins2]
    simp [store_flags]
  · rw [store_flags_cons, hins2]
    simp [store_flags]

/-- C3 witness: concrete double store of one flag into the empty ledger. -/
theorem C3_store_idempotent_witness :
    (store_flags [] ["flg"] 5).1 = 1 ∧
    entryStatus (store_flags [] ["flg"] 5).2 "flg" = some FlagStatus.Pending ∧
    (store_flags (store_flags [] ["flg"] 5).2 ["flg"] 9).1 = 0 := by
  have h := C3_store_idempotent [] "flg" 5 9 (by decide) (by simp)
  exact ⟨h.1, h.2.1, h.2.2.2.1⟩

/-- C8: `update_flag_status` on a flag with no ledger row reports zero updated
rows and leaves the ledger as it was; on an existing flag of a well-formed
ledger it reports exactly one updated row and rewrites that row's status,
points (absent points stored as 0), submitted_at and error fields. -/
theorem C8_update_semantics (L : Ledger) (f : String) (st : FlagStatus)
    (pts : Option ℚ) (msg : Option String) (now : ℕ) :
    ((∀ e ∈ L, e.flag ≠ f) → update_flag_status L f st pts msg now = (0, L)) ∧
    (wfLedger L → ∀ e ∈ L, e.flag = f →
      (update_flag_status L f st pts msg now).1 = 1 ∧
      findEntry (update_flag_status L f st pts msg now).2 f =
        some { e with status := st, points := pts.getD 0,
                      submittedAt := some now, errorMessage := msg }) := by
  constructor
  · intro h
    exact update_not_found h st pts msg now
  · intro hwf e he hef
    exact ⟨filter_flag_length_one hwf he hef,
      findEntry_update_self (findEntry_of_mem_wf hwf he hef) st pts msg now⟩

/-- C8 witness: updating a missing flag in the empty ledger is a no-op, and
updating the unique row of a one-row ledger reports one row. -/
theorem C8_update_semantics_witness :
    update_flag_status [] "a" FlagStatus.Accepted none none 3 = (0, []) ∧
    (update_flag_status [⟨"a", FlagStatus.Pending, 0, 0, none, none⟩] "a"
      FlagStatus.Accepted none none 3).1 = 1 := by
  refine ⟨(C8_update_semantics [] "a" FlagStatus.Accepted none none 3).1 (by simp), ?_⟩
  exact ((C8_update_semantics [⟨"a", FlagStatus.Pending, 0, 0, none, none⟩] "a"
    FlagStatus.Accepted none none 3).2 (by decide)
    ⟨"a", FlagStatus.Pending, 0, 0, none, none⟩ (by simp) rfl).1

/-- C7: the per-team aggregation marks a team Errored exactly when every one
of its per-exploit results failed; a team with one failing exploit and one
exploit that captured a flag is not Errored and that flag is in the
aggregated output; and a non-Errored team result can carry an empty flag
union when scripts succeeded without captures. -/
theorem C7_team_aggregation :
    (∀ rs : List AttackResult,
      isErrored (teamResult rs) = true ↔ ∀ r ∈ rs, resultIsErr r = true) ∧
    (∀ (e : AttackError) (f : String),
      isErrored (teamResult
        (attack_team_parallel [Except.error e, Except.ok [f]])) = false ∧
      f ∈ cycleFlags (teamResult
        (attack_team_parallel [Except.error e, Except.ok [f]]))) ∧
    (∃ rs : List AttackResult,
      isErrored (teamResult rs) = false ∧ cycleFlags (teamResult rs) = []) := by
  refine ⟨?_, ?_, ?_⟩
  · intro rs
    unfold teamResult
    by_cases hfl : (foldTeamResults rs).flags.isEmpty
    · by_cases hsc : 0 < (foldTeamResults rs).successCount
      · simp only [hfl, Bool.not_true, Bool.false_eq_true, if_false, hsc, if_pos]
        show isErrored TeamCycle.idle = true ↔ _
        simp only [isErrored, Bool.false_eq_true, false_iff]
        intro hall
        have h := (foldTeamResults_all_err rs).mpr hall
        omega
      · simp only [hfl, Bool.not_true, Bool.false_eq_true, if_false, hsc, if_neg,
          not_false_iff]
        show isErrored (TeamCycle.errored _) = true ↔ _
        simp only [isErrored, true_iff]
        exact (foldTeamResults_all_err rs).mp
          ⟨List.isEmpty_iff.mp hfl, Nat.eq_zero_of_not_pos hsc⟩
    · simp only [hfl, Bool.not_false, if_pos]
      show isErrored (TeamCycle.flagsResult _) = true ↔ _
      simp only [isErrored, Bool.false_eq_true, false_iff]
      intro hall
      have h := (foldTeamResults_all_err rs).mpr hall
      rw [h.1] at hfl
      simp at hfl
  · intro e f
    constructor
    · rfl
    · show f ∈ cycleFlags (teamResult [Except.error e, Except.ok [f]])
      have h : teamResult [Except.error e, Except.ok [f]] =
          TeamCycle.flagsResult [f] := rfl
      rw [h]
      simp [cycleFlags]
  · exact ⟨[Except.ok []], rfl, rfl⟩

/-- C4: batch response matching is positional: the i-th element of a 2xx
response array sets the status of the i-th pending flag; pending flags beyond
a short response array stay Pending; response elements beyond the pending
list are ignored. -/
theorem C4_positional_matching (L : Ledger) (flags : List String)
    (rs : List SubmitterHTTPResponse) (now : ℕ) (i : ℕ) (f : String)
    (hwf : wfLedger L)
    (hf : (get_pending_flags (store_flags L flags now).2)[i]? = some f) :
    (∀ r, rs[i]? = some r →
      entryStatus (submit_flags_http L flags (HttpOutcome.success rs) now).1 f =
        some (flagStatusFrom r.status)) ∧
    (rs.length ≤ i →
      entryStatus (submit_flags_http L flags (HttpOutcome.success rs) now).1 f =
        some FlagStatus.Pending) ∧
    submit_flags_http L flags (HttpOutcome.success rs) now =
      submit_flags_http L flags
        (HttpOutcome.success
          (rs.take (get_pending_flags (store_flags L flags now).2).length)) now := by
  have hwf1 : wfLedger (store_flags L flags now).2 := wf_store_flags hwf flags now
  have hnd := pending_nodup hwf1
  have hpend : ∀ g ∈ get_pending_flags (store_flags L flags now).2,
      entryStatus (store_flags L flags now).2 g = some FlagStatus.Pending :=
    fun g hg => entryStatus_of_mem_pending hwf1 hg
  have hne : (get_pending_flags (store_flags L flags now).2).isEmpty = false := by
    cases hp : get_pending_flags (store_flags L flags now).2 with
    | nil => rw [hp] at hf; simp at hf
    | cons a l => rfl
  have hsub : (submit_flags_http L flags (HttpOutcome.success rs) now).1 =
      processHttpSuccess (store_flags L flags now).2
        (get_pending_flags (store_flags L flags now).2) rs now := by
    simp [submit_flags_http, hne]
  have hmain := @processHttpSuccess_status _ rs _ now hnd hpend i f hf
  refine ⟨fun r hr => ?_, fun hlen => ?_, ?_⟩
  · rw [hsub]
    exact hmain.1 r hr
  · rw [hsub]
    exact hmain.2 hlen
  · have htake := processHttpSuccess_take (store_flags L flags now).2
      (get_pending_flags (store_flags L flags now).2) rs now
    simp only [submit_flags_http, hne, Bool.false_eq_true, if_false]
    rw [htake]

/-- C4 witness: three pending flags, two responses — the third flag stays
Pending. -/
theorem C4_positional_matching_witness :
    entryStatus (submit_flags_http [] ["fa", "fb", "fc"]
      (HttpOutcome.success
        [⟨"ok", "fa", SubmitterHTTPStatus.Accepted⟩,
         ⟨"dup", "fb", SubmitterHTTPStatus.Denied⟩]) 0).1 "fc" =
      some FlagStatus.Pending :=
  (C4_positional_matching [] ["fa", "fb", "fc"]
    [⟨"ok", "fa", SubmitterHTTPStatus.Accepted⟩,
     ⟨"dup", "fb", SubmitterHTTPStatus.Denied⟩] 0 2 "fc"
    (by decide) (by decide)).2.1 (by decide)

/-- C5: on a non-success HTTP status every pending flag's row ends in status
Error with an error message containing the HTTP status and the response body,
and no row becomes Accepted that was not already Accepted before the call
(fail closed). -/
theorem C5_fail_closed (L : Ledger) (flags : List String) (st body : String)
    (now : ℕ) (hwf : wfLedger L) :
    (∀ f ∈ get_pending_flags (store_flags L flags now).2,
      entryStatus (submit_flags_http L flags (HttpOutcome.failure st body) now).1 f =
        some FlagStatus.Error ∧
      entryError (submit_flags_http L flags (HttpOutcome.failure st body) now).1 f =
        some (some (httpErrorMsg st body)) ∧
      isSubstrL st.toList (httpErrorMsg st body).toList = true ∧
      isSubstrL body.toList (httpErrorMsg st body).toList = true) ∧
    (∀ e' ∈ (submit_flags_http L flags (HttpOutcome.failure st body) now).1,
      e'.status = FlagStatus.Accepted → e' ∈ L) := by
  have hwf1 : wfLedger (store_flags L flags now).2 := wf_store_flags hwf flags now
  have hnd := pending_nodup hwf1
  have hpend : ∀ g ∈ get_pending_flags (store_flags L flags now).2,
      entryStatus (store_flags L flags now).2 g = some FlagStatus.Pending :=
    fun g hg => entryStatus_of_mem_pending hwf1 hg
  have hmemL : ∀ e' ∈ (store_flags L flags now).2,
      e'.status = FlagStatus.Accepted → e' ∈ L := by
    intro e' he' hacc
    rcases store_flags_sub he' with hL | hnewp
    · exact hL
    · rw [hnewp.1] at hacc
      cases hacc
  by_cases hne : (get_pending_flags (store_flags L flags now).2).isEmpty
  · have hvac : get_pending_flags (store_flags L flags now).2 = [] :=
      List.isEmpty_iff.mp hne
    have hres : (submit_flags_http L flags (HttpOutcome.failure st body) now).1 =
        (store_flags L flags now).2 := by
      simp [submit_flags_http, hne]
    refine ⟨?_, ?_⟩
    · rw [hvac]
      intro f hfm
      cases hfm
    · rw [hres]
      exact hmemL
  · have hne' : (get_pending_flags (store_flags L flags now).2).isEmpty = false :=
      Bool.eq_false_iff.mpr hne
    have hres : (submit_flags_http L flags (HttpOutcome.failure st body) now).1 =
        processHttpFailure (store_flags L flags now).2
          (get_pending_flags (store_flags L flags now).2) st body now := by
      simp [submit_flags_http, hne']
    have hex : ∀ g ∈ get_pending_flags (store_flags L flags now).2,
        (findEntry (store_flags L flags now).2 g).isSome = true := by
      intro g hg
      have := hpend g hg
      unfold entryStatus at this
      cases hfe : findEntry (store_flags L flags now).2 g with
      | none => rw [hfe] at this; cases this
      | some e => rfl
    refine ⟨?_, ?_⟩
    · intro f hfm
      have h := @processHttpFailure_status _ _ st body now hnd hex f hfm
      rw [hres]
      exact ⟨h.1, h.2, httpErrorMsg_contains_st st body,
        httpErrorMsg_contains_body st body⟩
    · intro e' he' hacc
      rw [hres] at he'
      rcases mem_processHttpFailure he' with hm | herr
      · exact hmemL e' hm hacc
      · rw [hacc] at herr
        cases herr

/-- C5 witness: one pending flag against a concrete failing response. -/
theorem C5_fail_closed_witness :
    entryStatus (submit_flags_http [] ["x"]
      (HttpOutcome.failure "500" "oops") 0).1 "x" = some FlagStatus.Error :=
  ((C5_fail_closed [] ["x"] "500" "oops" 0 (by decide)).1 "x" (by decide)).1

/-- C10: the batch client always updates rows with absent points, stored as 0;
hence every row it flips to Accepted carries 0 points and the ledger's total
accepted points are unchanged by a batch-only submission cycle — in
particular they never increase. -/
theorem C10_http_zero_points (L : Ledger) (flags : List String)
    (outcome : HttpOutcome) (now : ℕ) (hwf : wfLedger L) :
    get_points_summary (submit_flags_http L flags outcome now).1 =
      get_points_summary L ∧
    ∀ e' ∈ (submit_flags_http L flags outcome now).1,
      e'.status = FlagStatus.Accepted → e' ∈ L ∨ e'.points = 0 := by
  have hwf1 : wfLedger (store_flags L flags now).2 := wf_store_flags hwf flags now
  have hnd := pending_nodup hwf1
  have hpend : ∀ g ∈ get_pending_flags (store_flags L flags now).2,
      entryStatus (store_flags L flags now).2 g = some FlagStatus.Pending :=
    fun g hg => entryStatus_of_mem_pending hwf1 hg
  have hmemL : ∀ e' ∈ (store_flags L flags now).2,
      e' ∈ L ∨ e'.points = 0 := by
    intro e' he'
    rcases store_flags_sub he' with hL | hnewp
    · exact Or.inl hL
    · exact Or.inr hnewp.2
  by_cases hne : (get_pending_flags (store_flags L flags now).2).isEmpty
  · have hres : (submit_flags_http L flags outcome now).1 =
        (store_flags L flags now).2 := by
      simp [submit_flags_http, hne]
    rw [hres, summary_store_flags]
    exact ⟨rfl, fun e' he' _ => hmemL e' he'⟩
  · have hne' : (get_pending_flags (store_flags L flags now).2).isEmpty = false :=
      Bool.eq_false_iff.mpr hne
    cases outcome with
    | success rs =>
      have hres : (submit_flags_http L flags (HttpOutcome.success rs) now).1 =
          processHttpSuccess (store_flags L flags now).2
            (get_pending_flags (store_flags L flags now).2) rs now := by
        simp [submit_flags_http, hne']
      rw [hres, summary_processHttpSuccess hwf1 hnd hpend, summary_store_flags]
      refine ⟨rfl, fun e' he' _ => ?_⟩
      rcases mem_processHttpSuccess he' with hm | hz
      · exact hmemL e' hm
      · exact Or.inr hz
    | failure st body =>
      have hres : (submit_flags_http L flags (HttpOutcome.failure st body) now).1 =
          processHttpFailure (store_flags L flags now).2
            (get_pending_flags (store_flags L flags now).2) st body now := by
        simp [submit_flags_http, hne']
      rw [hres, summary_processHttpFailure hwf1 hnd hpend, summary_store_flags]
      refine ⟨rfl, fun e' he' hacc => ?_⟩
      rcases mem_processHttpFailure he' with hm | herr
      · exact hmemL e' hm
      · rw [hacc] at herr
        cases herr

/-- C10 witness: a concrete batch cycle accepting one flag leaves the
accepted-points total unchanged. -/
theorem C10_http_zero_points_witness :
    get_points_summary (submit_flags_http [] ["x"]
      (HttpOutcome.success [⟨"ok", "x", SubmitterHTTPStatus.Accepted⟩]) 0).1 =
      get_points_summary [] :=
  (C10_http_zero_points [] ["x"]
    (HttpOutcome.success [⟨"ok", "x", SubmitterHTTPStatus.Accepted⟩]) 0
    (by decide)).1

/-- C2: a failed handshake aborts the TCP submission attempt with the
matching error (`NoGreeting` when the greeting line has no greeting word,
`NoReadyMessage` when the ready line has no ready word), and every row that
was Pending before the call is still present unchanged — hence still
Pending — afterwards. -/
theorem C2_handshake_failure (L : Ledger) (flags : List String)
    (server : List String) (now : ℕ)
    (hne : (get_pending_flags (store_flags L flags now).2).isEmpty = false) :
    (containsAny (readLine server).1 msgGreetings = false →
      (submit_flags_tcp L flags server now).2 =
        Except.error SubmitError.NoGreeting ∧
      ∀ e ∈ L, e.status = FlagStatus.Pending →
        e ∈ (submit_flags_tcp L flags server now).1) ∧
    (containsAny (readLine server).1 msgGreetings = true →
      containsAny (readLine (readLine server).2).1 msgReady = false →
      (submit_flags_tcp L flags server now).2 =
        Except.error SubmitError.NoReadyMessage ∧
      ∀ e ∈ L, e.status = FlagStatus.Pending →
        e ∈ (submit_flags_tcp L flags server now).1) := by
  constructor
  · intro hg
    have hres : submit_flags_tcp L flags server now =
        ((store_flags L flags now).2, Except.error SubmitError.NoGreeting) := by
      simp [submit_flags_tcp, hne, hg]
    rw [hres]
    exact ⟨rfl, fun e he _ => mem_store_flags he flags now⟩
  · intro hg hr
    have hres : submit_flags_tcp L flags server now =
        ((store_flags L flags now).2, Except.error SubmitError.NoReadyMessage) := by
      simp [submit_flags_tcp, hne, hg, hr]
    rw [hres]
    exact ⟨rfl, fun e he _ => mem_store_flags he flags now⟩

/-- C2 witness: a server answering "goodbye" fails the handshake with
`NoGreeting`. -/
theorem C2_handshake_failure_witness :
    (submit_flags_tcp [] ["f"] ["goodbye"] 0).2 =
      Except.error SubmitError.NoGreeting :=
  ((C2_handshake_failure [] ["f"] ["goodbye"] 0 (by decide)).1 (by decide)).1

/-- C6 (amended): after processing all pending flags the TCP client returns
the in-memory `total_points` accumulator — the sum over the pending flags of
the points parsed from each accepted response line — not the
ledger-recomputed total, which is computed but only logged. -/
theorem C6_returns_accumulator (L : Ledger) (flags : List String)
    (server : List String) (now : ℕ)
    (hne : (get_pending_flags (store_flags L flags now).2).isEmpty = false)
    (hg : containsAny (readLine server).1 msgGreetings = true)
    (hr : containsAny (readLine (readLine server).2).1 msgReady = true) :
    (submit_flags_tcp L flags server now).2 =
      Except.ok (true,
        attemptPoints (get_pending_flags (store_flags L flags now).2)
          (readLine (readLine server).2).2) := by
  have hlen : decide
      (0 < (get_pending_flags (store_flags L flags now).2).length) = true := by
    cases hp : get_pending_flags (store_flags L flags now).2 with
    | nil => rw [hp] at hne; cases hne
    | cons a l => simp
  simp only [submit_flags_tcp, hne, Bool.false_eq_true, if_false, hg, hr,
    Bool.not_true, hlen, submitLoop_points]

/-- C6 witness: a concrete run through the happy handshake returns the
attempt's accumulator. -/
theorem C6_returns_accumulator_witness :
    (submit_flags_tcp [] ["f"] ["welcome", "start", "earned 0"] 1).2 =
      Except.ok (true,
        attemptPoints (get_pending_flags (store_flags [] ["f"] 1).2)
          ["earned 0"]) :=
  C6_returns_accumulator [] ["f"] ["welcome", "start", "earned 0"] 1
    (by decide) (by decide) (by decide)

/-- C6 counterexample: with a previously accepted 10-point row in the ledger,
the TCP client returns this attempt's accumulator 0, while the
ledger-recomputed total after the call is 10 — so the returned value is not
the total recomputed from the ledger. -/
theorem C6_counterexample :
    (submit_flags_tcp [⟨"g", FlagStatus.Accepted, 10, 0, none, none⟩] ["f"]
      ["welcome", "start", "earned 0"] 1).2 = Except.ok (true, 0) ∧
    get_points_summary (submit_flags_tcp
      [⟨"g", FlagStatus.Accepted, 10, 0, none, none⟩] ["f"]
      ["welcome", "start", "earned 0"] 1).1 = 10 ∧
    (0 : ℚ) ≠ 10 := by
  refine ⟨?_, ?_, by norm_num⟩
  · simp +decide [submit_flags_tcp, store_flags, insertFlag, get_pending_flags,
      submitLoop, submitOneFlag, update_flag_status, codePoints, firstRun,
      parseF64, natVal, readLine]
  · simp +decide [submit_flags_tcp, store_flags, insertFlag, get_pending_flags,
      submitLoop, submitOneFlag, update_flag_status, codePoints, firstRun,
      parseF64, natVal, readLine, get_points_summary, summary_cons]

/-- C1: the code's points extraction for an accepted line diverges from the
all-numeric-substrings sum the claim states.  `Regex::captures` yields only
the first `[\d,.]+` match (the pattern has no capture groups, so the group
loop visits just the whole match): on a line whose numeric substrings are 5
and 2 the code records 5, not the claimed 7, and on the canonical phrasing
"flag accepted, earned 3 points" the first match is the comma, which fails to
parse, so the code records 0 where the claimed sum is 3; the per-flag ledger
update stores the code's value. -/
theorem C1_points_extraction_bug :
    codePoints "accepted earned 5 and 2 points" = 5 ∧
    specPoints "accepted earned 5 and 2 points" = 7 ∧
    codePoints "flag accepted, earned 3 points" = 0 ∧
    specPoints "flag accepted, earned 3 points" = 3 ∧
    entryPoints (submitOneFlag [⟨"f", FlagStatus.Pending, 0, 0, none, none⟩]
      "f" "accepted earned 5 and 2 points" 1).1 "f" = some 5 := by
  refine ⟨?_, ?_, ?_, ?_, ?_⟩
  · simp +decide [codePoints, firstRun, parseF64, natVal]
  · have h : allRuns "accepted earned 5 and 2 points".toList = [['5'], ['2']] := by
      decide
    rw [specPoints, h]
    simp +decide [parseF64, natVal]
    norm_num
  · simp +decide [codePoints, firstRun, parseF64, natVal]
  · have h : allRuns "flag accepted, earned 3 points".toList = [[','], ['3']] := by
      decide
    rw [specPoints, h]
    simp +decide [parseF64, natVal]
  · simp +decide [submitOneFlag, update_flag_status, entryPoints, findEntry,
      codePoints, firstRun, parseF64, natVal]

end Hzrd

